import Mathlib

/-!
# Verification of the `flow` path-addressing engine

A shallow embedding of the core of the `flow` CLI (a streaming JSON/YAML
processor): dynamically-typed documents, the dotted-path parser, wildcard
expansion, the tree accessors (get / set-with-overwrite / delete), and the
user-facing operations Pick, Set, Delete, Where, composed into a Pipeline.

Modelling conventions:
* Go's `any` document values become the inductive `Val`.  Go maps
  (`map[string]any`) are modelled as association lists with unique keys in
  canonical examples; `mapGet`/`mapSet`/`mapDel` reproduce Go map lookup,
  in-place update and `delete`.
* JSON numbers (Go `float64`) are modelled as `Int`: no claim under study
  depends on non-integral or overflowing float behaviour.
* Go code that can panic (negative slice index) is modelled with `Except`,
  a panic becoming an `.error "panic: ..."` result.
* The `Filtered` sentinel (`*filteredMarker`) is one more `Val`
  constructor: like the Go value it fails every map/slice type assertion.
* In-place mutation of an unshared document tree is modelled by functional
  update along the mutated path.
-/

namespace Flow

/-- A decoded document value (Go `any` after JSON/YAML decode), plus the
`filtered` sentinel that the Where operation may return. -/
inductive Val where
  | vnull
  | vbool (b : Bool)
  | vnum (n : Int)
  | vstr (s : String)
  | arr (elems : List Val)
  | vmap (fields : List (String × Val))
  | filtered
deriving Repr

/-- Decidable equality for `Val` (nested through lists and pairs). -/
def Val.beq : Val → Val → Bool
  | .vnull, .vnull => true
  | .vbool a, .vbool b => a == b
  | .vnum a, .vnum b => a == b
  | .vstr a, .vstr b => a == b
  | .arr xs, .arr ys => beqList xs ys
  | .vmap xs, .vmap ys => beqFields xs ys
  | .filtered, .filtered => true
  | _, _ => false
where
  beqList : List Val → List Val → Bool
    | [], [] => true
    | x :: xs, y :: ys => Val.beq x y && beqList xs ys
    | _, _ => false
  beqFields : List (String × Val) → List (String × Val) → Bool
    | [], [] => true
    | (k, x) :: xs, (l, y) :: ys => k == l && Val.beq x y && beqFields xs ys
    | _, _ => false

mutual
theorem Val.beq_iff : ∀ a b : Val, Val.beq a b = true ↔ a = b
  | .vnull, b => by cases b <;> simp [Val.beq]
  | .vbool x, b => by cases b <;> simp [Val.beq]
  | .vnum x, b => by cases b <;> simp [Val.beq]
  | .vstr x, b => by cases b <;> simp [Val.beq]
  | .arr xs, b => by
      cases b <;> simp [Val.beq]
      exact Val.beqList_iff xs _
  | .vmap xs, b => by
      cases b <;> simp [Val.beq]
      exact Val.beqFields_iff xs _
  | .filtered, b => by cases b <;> simp [Val.beq]

theorem Val.beqList_iff : ∀ xs ys : List Val, Val.beq.beqList xs ys = true ↔ xs = ys
  | [], ys => by cases ys <;> simp [Val.beq.beqList]
  | x :: xs, ys => by
      cases ys with
      | nil => simp [Val.beq.beqList]
      | cons y ys =>
        simp only [Val.beq.beqList, Bool.and_eq_true, List.cons.injEq]
        rw [Val.beq_iff x y, Val.beqList_iff xs ys]

theorem Val.beqFields_iff :
    ∀ xs ys : List (String × Val), Val.beq.beqFields xs ys = true ↔ xs = ys
  | [], ys => by cases ys <;> simp [Val.beq.beqFields]
  | (k, x) :: xs, ys => by
      cases ys with
      | nil => simp [Val.beq.beqFields]
      | cons p ys =>
        obtain ⟨l, y⟩ := p
        simp only [Val.beq.beqFields, Bool.and_eq_true, List.cons.injEq, Prod.mk.injEq,
          beq_iff_eq]
        rw [Val.beq_iff x y, Val.beqFields_iff xs ys]
end

instance : DecidableEq Val := fun a b =>
  decidable_of_iff (Val.beq a b = true) (Val.beq_iff a b)

deriving instance DecidableEq for Except

/-- Association lists standing in for Go's `map[string]any`. -/
abbrev MapV := List (String × Val)

/-- Go map lookup `m[key]` (comma-ok form). -/
def mapGet : MapV → String → Option Val
  | [], _ => none
  | (k, v) :: rest, key => if k = key then some v else mapGet rest key

/-- Go map assignment `m[key] = v`: replace the existing binding or append. -/
def mapSet : MapV → String → Val → MapV
  | [], key, v => [(key, v)]
  | (k, w) :: rest, key, v =>
      if k = key then (k, v) :: rest else (k, w) :: mapSet rest key v

/-- Go `delete(m, key)`. -/
def mapDel : MapV → String → MapV
  | [], _ => []
  | (k, w) :: rest, key =>
      if k = key then mapDel rest key else (k, w) :: mapDel rest key

/-! ## Path parsing (`parsePath`, file `operation/paths.go`)

One step of a parsed path: a key plus an optional array index; the
wildcard `[*]` is stored as index `-1`, exactly as in the Go source. -/

structure Segment where
  key : String
  idx : Option Int
deriving Repr, DecidableEq

/-- Model of `strings.Split(s, ".")` on character lists (splits on every dot,
keeping empty fragments; never returns an empty list). -/
def splitOnChar (c : Char) : List Char → List (List Char)
  | [] => [[]]
  | x :: xs =>
    if x = c then [] :: splitOnChar c xs
    else
      match splitOnChar c xs with
      | [] => [[x]]
      | h :: t => (x :: h) :: t

/-- Decimal digits to a number; `none` if empty or a non-digit appears. -/
def digitsToNatAux : List Char → Nat → Option Nat
  | [], acc => some acc
  | c :: rest, acc =>
      if c.isDigit then digitsToNatAux rest (acc * 10 + (c.toNat - '0'.toNat))
      else none

def digitsToNat (ds : List Char) : Option Nat :=
  if ds.isEmpty then none else digitsToNatAux ds 0

/-- Model of `strconv.Atoi` on a 64-bit platform: optional sign, decimal digits,
range-checked against the signed 64-bit integer range (out of range is an
error, hence `none`). -/
def atoi (s : List Char) : Option Int :=
  match s with
  | [] => none
  | c :: ds =>
    if c = '+' then
      (digitsToNat ds).bind fun n =>
        if (n : Int) ≤ 2 ^ 63 - 1 then some (n : Int) else none
    else if c = '-' then
      (digitsToNat ds).bind fun n =>
        if (n : Int) ≤ 2 ^ 63 then some (-(n : Int)) else none
    else
      (digitsToNat (c :: ds)).bind fun n =>
        if (n : Int) ≤ 2 ^ 63 - 1 then some (n : Int) else none

/-- The index body of a raw fragment: the text between the first `[` and
the final character (Go's `part[open+1 : len(part)-1]`). -/
def idxBodyOf (part : List Char) : List Char :=
  ((part.dropWhile (· ≠ '[')).drop 1).dropLast

/-- One raw `.`-separated fragment of a path, as in the loop body of
`parsePath`: bare key, `key[digits]`, or `key[*]`. -/
def parseSegment (part : List Char) : Except String Segment :=
  let key := part.takeWhile (· ≠ '[')
  let rest := part.dropWhile (· ≠ '[')
  if rest.isEmpty then .ok ⟨String.mk part, none⟩
  else if part.getLast? ≠ some ']' ∨ key.isEmpty then .error "invalid segment"
  else
    let idxStr := idxBodyOf part
    if idxStr.isEmpty then .error "empty index"
    else if idxStr = ['*'] then .ok ⟨String.mk key, some (-1)⟩
    else
      match atoi idxStr with
      | some n => if n < 0 then .error "invalid non-negative index" else .ok ⟨String.mk key, some n⟩
      | none => .error "invalid non-negative index"

/-- The fragment loop of `parsePath`: first error wins. -/
def parseSegsList : List (List Char) → Except String (List Segment)
  | [] => .ok []
  | part :: rest =>
    match parseSegment part with
    | .error e => .error e
    | .ok s => (parseSegsList rest).map (s :: ·)

/-- Function `parsePath`: split on `.`, parse each fragment, first error wins. -/
def parsePath (path : String) : Except String (List Segment) :=
  if path = "" then .error "empty path"
  else parseSegsList (splitOnChar '.' path.toList)

/-! ## Tree accessor: get (`getAtPath`, file `operation/pick.go`) -/

/-- Function `getAtPath`: walk the steps; any miss is "not found" (`none`), never an
error.  Exactly as in the Go loop, a step whose key is empty skips the map
lookup, and a step with an index requires an in-range slice. -/
def getAtPath : Val → List Segment → Option Val
  | cur, [] => some cur
  | cur, s :: rest =>
    let afterKey : Option Val :=
      if s.key ≠ "" then
        match cur with
        | .vmap m => mapGet m s.key
        | _ => none
      else some cur
    match afterKey with
    | none => none
    | some c1 =>
      match s.idx with
      | none => getAtPath c1 rest
      | some i =>
        match c1 with
        | .arr xs =>
          if i < 0 ∨ (xs.length : Int) ≤ i then none
          else getAtPath (xs.getD i.toNat .vnull) rest
        | _ => none

/-! ## `fmt.Sprintf("%v", ·)` (used by Where for comparisons)

Scalars follow Go's default formatting; for sequences Go prints
`[e1 e2 ...]` and for maps `map[k1:v1 k2:v2]` (Go sorts map keys; the
model prints fields in stored order, which agrees on the sorted
association lists used throughout).  The sentinel prints as a struct
pointer.  `Int`-modelled numbers print as decimal integers, matching
`%v` on the integral float64 values JSON decoding produces. -/

def goFmtBool (b : Bool) : String := if b then "true" else "false"

def goFmtInt (n : Int) : String :=
  if n < 0 then "-" ++ toString (-n).toNat else toString n.toNat

mutual
def fmtV : Val → String
  | .vnull => "<nil>"
  | .vbool b => goFmtBool b
  | .vnum n => goFmtInt n
  | .vstr s => s
  | .arr xs => "[" ++ fmtElems xs ++ "]"
  | .vmap fs => "map[" ++ fmtFields fs ++ "]"
  | .filtered => "&\x7b\x7d"

def fmtElems : List Val → String
  | [] => ""
  | [x] => fmtV x
  | x :: xs => fmtV x ++ " " ++ fmtElems xs

def fmtFields : List (String × Val) → String
  | [] => ""
  | [(k, v)] => k ++ ":" ++ fmtV v
  | (k, v) :: fs => k ++ ":" ++ fmtV v ++ " " ++ fmtFields fs
end

/-! ## Operation: Where (`operation/where.go`) -/

/-- One `key=value` filter condition (path already parsed). -/
structure Cond where
  path : List Segment
  value : String
deriving Repr, DecidableEq

/-- The Where navigator: a distinct, simpler walk that reports an error on
any miss.  A map step consumes key and optional index; a slice step
consumes only the index (ignoring the key); anything else fails. -/
def navigatePath : Val → List Segment → Except String Val
  | current, [] => .ok current
  | current, seg :: rest =>
    match current with
    | .vmap m =>
      match mapGet m seg.key with
      | none => .error "field not found"
      | some val =>
        match seg.idx with
        | none => navigatePath val rest
        | some i =>
          match val with
          | .arr xs =>
            if i < 0 ∨ (xs.length : Int) ≤ i then .error "index out of range"
            else navigatePath (xs.getD i.toNat .vnull) rest
          | _ => .error "field is not an array"
    | .arr xs =>
      match seg.idx with
      | none => .error "array requires index"
      | some i =>
        if i < 0 ∨ (xs.length : Int) ≤ i then .error "index out of range"
        else navigatePath (xs.getD i.toNat .vnull) rest
    | _ => .error "cannot navigate"

/-- One condition matches: the path resolves and the `%v` rendering of the
value equals the expected string. -/
def matchesCond (v : Val) (c : Cond) : Bool :=
  match navigatePath v c.path with
  | .ok fv => fmtV fv = c.value
  | .error _ => false

/-- The condition loop of `Where.Apply`: first failing condition returns
the `Filtered` sentinel. -/
def whereLoop (v : Val) : List Cond → Val
  | [] => v
  | c :: rest => if matchesCond v c then whereLoop v rest else .filtered

/-- Function `Where.Apply`: never an error; the document itself when every
condition matches, the sentinel otherwise (no conditions pass through). -/
def WhereApply (conds : List Cond) (v : Val) : Except String Val :=
  .ok (whereLoop v conds)

/-! ## Wildcard expansion (`expandWildcardPaths`, file `operation/paths.go`) -/

/-- Function `buildPath`: join the path so far with the next key. -/
def buildPath (current key : String) : String :=
  if current = "" then key else current ++ "." ++ key

/-- Append a concrete `[i]` suffix to a path string. -/
def idxSuffix (p : String) (i : Nat) : String := p ++ "[" ++ toString i ++ "]"

/-- The wildcard loop of `expandArrayIndex`: recurse into every existing
element, path suffixed with its index, and concatenate in order. -/
def wildLoop (f : Val → String → List String) : List Val → Nat → String → List String
  | [], _, _ => []
  | x :: xs, i, base => f x (idxSuffix base i) ++ wildLoop f xs (i + 1) base

/-- Functions `expandSegments`/`expandArrayIndex` fused: enumerate every concrete
path the remaining steps reach in `v`.  Misses (wrong kind, absent key,
out-of-range index) contribute no paths and no error. -/
def expandSegments : List Segment → Val → String → List String
  | [], _, currentPath => [currentPath]
  | seg :: remaining, v, currentPath =>
    if seg.key = "" then []
    else
      match v with
      | .vmap m =>
        match mapGet m seg.key with
        | none => []
        | some child =>
          let newPath := buildPath currentPath seg.key
          match seg.idx with
          | none => expandSegments remaining child newPath
          | some i =>
            match child with
            | .arr xs =>
              if i = -1 then
                wildLoop (fun elem pth => expandSegments remaining elem pth) xs 0 newPath
              else if i < 0 ∨ (xs.length : Int) ≤ i then []
              else expandSegments remaining (xs.getD i.toNat .vnull) (idxSuffix newPath i.toNat)
            | _ => []
      | _ => []

/-- Function `expandWildcardPaths`: parse, then expand (parse errors only). -/
def expandWildcardPaths (v : Val) (pathStr : String) : Except String (List String) :=
  (parsePath pathStr).map (fun segs => expandSegments segs v "")

/-! ## Operation: Pick (`operation/pick.go`) -/

/-- Model of `strings.Contains(pathStr, "[*]")`. -/
def hasWildcardSub (s : String) : Bool := hasWildcardChars s.toList
where
  hasWildcardChars : List Char → Bool
    | '[' :: '*' :: ']' :: _ => true
    | _ :: rest => hasWildcardChars rest
    | [] => false

/-- The collection loop shared by `applySinglePath` (multi-value case) and
`addWildcardResults`: parse each expanded path (error propagates), look it
up, and keep only the values that are found. -/
def collectVals (v : Val) : List String → Except String (List Val)
  | [] => .ok []
  | q :: rest =>
    match parsePath q with
    | .error e => .error e
    | .ok segs =>
      match getAtPath v segs with
      | some val => (collectVals v rest).map (val :: ·)
      | none => collectVals v rest

/-- Function `Pick.applySinglePath` (flattened mode, one configured path). -/
def applySinglePath (v : Val) (pathStr : String) : Except String Val :=
  let hasWildcard := hasWildcardSub pathStr
  match expandWildcardPaths v pathStr with
  | .error e => .error e
  | .ok expandedPaths =>
    if hasWildcard ∧ expandedPaths.isEmpty then .ok (.arr [])
    else if expandedPaths.length ≤ 1 then
      match parsePath pathStr with
      | .error e => .error e
      | .ok segs =>
        match getAtPath v segs with
        | some val => .ok val
        | none => .ok .vnull
    else (collectVals v expandedPaths).map .arr

/-- Function `getFinalKey`: last key of a parsed path (empty for no segments). -/
def getFinalKey (segs : List Segment) : String :=
  match segs.getLast? with
  | none => ""
  | some s => s.key

/-- Model of `strings.ReplaceAll(pathStr, "[*]", "")` on character lists
(non-overlapping, left to right). -/
def removeWildMarks : List Char → List Char
  | '[' :: '*' :: ']' :: rest => removeWildMarks rest
  | c :: rest => c :: removeWildMarks rest
  | [] => []

/-- Function `getFinalKeyFromPath`: strip wildcard markers, take the last
`.`-separated fragment. -/
def getFinalKeyFromPath (pathStr : String) : String :=
  String.mk ((splitOnChar '.' (removeWildMarks pathStr.toList)).getLastD [])

/-- Function `Pick.addWildcardResults`: collected wildcard values land as an array
under the path's final key (nothing is added when none were found). -/
def addWildcardResults (v : Val) (pathStr : String) (expanded : List String) (out : MapV) :
    Except String MapV :=
  match collectVals v expanded with
  | .error e => .error e
  | .ok results =>
    if results.isEmpty then .ok out
    else .ok (mapSet out (getFinalKeyFromPath pathStr) (.arr results))

/-- Function `Pick.addSinglePathResult`: one value under its final key; missing
paths are skipped. -/
def addSinglePathResult (v : Val) (pathStr : String) (out : MapV) : Except String MapV :=
  match parsePath pathStr with
  | .error e => .error e
  | .ok segs =>
    match getAtPath v segs with
    | none => .ok out
    | some val => .ok (mapSet out (getFinalKey segs) val)

/-- The path loop of `Pick.applyMultiplePaths`. -/
def multiLoop (v : Val) (out : MapV) : List String → Except String MapV
  | [] => .ok out
  | pathStr :: rest =>
    match expandWildcardPaths v pathStr with
    | .error e => .error e
    | .ok exp0 =>
      let expanded := if exp0.isEmpty then [pathStr] else exp0
      if expanded.length > 1 then
        match addWildcardResults v pathStr expanded out with
        | .error e => .error e
        | .ok out1 => multiLoop v out1 rest
      else
        match addSinglePathResult v pathStr out with
        | .error e => .error e
        | .ok out1 => multiLoop v out1 rest

/-- Function `Pick.applyMultiplePaths` (flattened mode, several paths): a flat
mapping keyed by final key; null when nothing at all was found. -/
def applyMultiplePaths (paths : List String) (v : Val) : Except String Val :=
  (multiLoop v [] paths).map (fun out => if out.isEmpty then .vnull else .vmap out)

/-! ## Tree accessor: hierarchy-preserving set (`setAtPath`, `operation/pick.go`)

A Go slice write `slice[idx] = v` with `idx` out of range panics; the
model returns a `panic` error instead (the only negative index the parser
produces is the wildcard's `-1`). -/

/-- Assignment `slice[idx] = v`, Go semantics: panic when out of range. -/
def listSetPanic (xs : List Val) (i : Int) (v : Val) : Except String (List Val) :=
  if 0 ≤ i ∧ i < (xs.length : Int) then .ok (xs.set i.toNat v)
  else .error "panic: index out of range"

/-- Function `ensureSliceExists`: the slice under `key`, or a fresh empty one. -/
def ensureSliceExists (m : MapV) (key : String) : List Val :=
  match mapGet m key with
  | some (.arr xs) => xs
  | _ => []

/-- Function `growSliceIfNeeded`: grow to exactly `idx+1` slots (new ones null)
when `idx` is past the end; never shrink. -/
def growSliceIfNeeded (slice : List Val) (i : Int) : List Val :=
  if (slice.length : Int) ≤ i then
    slice ++ List.replicate (i.toNat + 1 - slice.length) .vnull
  else slice

/-- The map branch's ensure step (`handleMapSegment`, not-last case): the
existing child map, or a fresh empty one when absent or not a map. -/
def childMapOf (m : MapV) (key : String) : MapV :=
  match mapGet m key with
  | some (.vmap mm) => mm
  | _ => []

/-- Function `ensureMapAtIndex`: the map at `slice[idx]`, or a fresh empty one
(`slice[idx]` read panics on a negative index). -/
def mapAtIndex (slice : List Val) (i : Int) : Except String MapV :=
  if 0 ≤ i ∧ i < (slice.length : Int) then
    match slice.getD i.toNat .vnull with
    | .vmap mm => .ok mm
    | _ => .ok []
  else .error "panic: index out of range"

/-- Function `setAtPath` (legacy Pick merge): create/descend maps and slices to
place `val` at `segs` inside `out`. -/
def setAtPath (out : MapV) : List Segment → Val → Except String MapV
  | [], _ => .ok out
  | [s], val =>
    match s.idx with
    | none => .ok (mapSet out s.key val)
    | some i =>
      let slice := growSliceIfNeeded (ensureSliceExists out s.key) i
      (listSetPanic slice i val).map (fun slice1 => mapSet out s.key (.arr slice1))
  | s :: s2 :: rest, val =>
    match s.idx with
    | none =>
      (setAtPath (childMapOf out s.key) (s2 :: rest) val).map
        (fun child1 => mapSet out s.key (.vmap child1))
    | some i =>
      let slice := growSliceIfNeeded (ensureSliceExists out s.key) i
      match mapAtIndex slice i with
      | .error e => .error e
      | .ok nextObj =>
        (setAtPath nextObj (s2 :: rest) val).map
          (fun mm => mapSet out s.key (.arr (slice.set i.toNat (.vmap mm))))

/-- The expanded-path loop of `Pick.applyWithHierarchy`. -/
def hierInner (v : Val) (out : MapV) : List String → Except String MapV
  | [] => .ok out
  | q :: qs =>
    match parsePath q with
    | .error e => .error e
    | .ok segs =>
      match getAtPath v segs with
      | none => hierInner v out qs
      | some val =>
        match setAtPath out segs val with
        | .error e => .error e
        | .ok out1 => hierInner v out1 qs

/-- The raw-path loop of `Pick.applyWithHierarchy`. -/
def hierLoop (v : Val) (out : MapV) : List String → Except String MapV
  | [] => .ok out
  | raw :: rest =>
    match expandWildcardPaths v raw with
    | .error e => .error e
    | .ok exp0 =>
      let expanded := if exp0.isEmpty then [raw] else exp0
      match hierInner v out expanded with
      | .error e => .error e
      | .ok out1 => hierLoop v out1 rest

/-- Function `Pick.applyWithHierarchy` (legacy mode): rebuild each found path in a
fresh output mapping; always a mapping, possibly empty. -/
def applyWithHierarchy (paths : List String) (v : Val) : Except String Val :=
  (hierLoop v [] paths).map .vmap

/-- Function `Pick.Apply`: mode dispatch. -/
def PickApply (paths : List String) (preserveHierarchy : Bool) (v : Val) : Except String Val :=
  if paths.isEmpty then .ok v
  else if preserveHierarchy then applyWithHierarchy paths v
  else
    match paths with
    | [p] => applySinglePath v p
    | _ => applyMultiplePaths paths v

/-! ## Operation: Set (`operation/set.go`) -/

/-- Function `ensureNestedMap`: existing child map, else overwrite with a fresh
empty mapping (same behaviour as `childMapOf`, kept separate to mirror
the source). -/
def ensureNestedMap (m : MapV) (key : String) : MapV :=
  match mapGet m key with
  | some (.vmap mm) => mm
  | _ => []

/-- Function `ensureSliceOverwrite`: existing child slice, else a fresh empty one. -/
def ensureSliceOverwrite (m : MapV) (key : String) : List Val :=
  match mapGet m key with
  | some (.arr xs) => xs
  | _ => []

/-- Function `expandSliceToIndex`: grow to exactly `idx+1` slots (new ones null);
a slice already long enough is returned unchanged. -/
def expandSliceToIndex (slice : List Val) (i : Int) : List Val :=
  if i < (slice.length : Int) then slice
  else slice ++ List.replicate (i.toNat + 1 - slice.length) .vnull

/-- Function `ensureMapAtSliceIndex` (panics on a negative index like the Go slice
read it models). -/
def ensureMapAtSliceIndex (slice : List Val) (i : Int) : Except String MapV :=
  if 0 ≤ i ∧ i < (slice.length : Int) then
    match slice.getD i.toNat .vnull with
    | .vmap mm => .ok mm
    | _ => .ok []
  else .error "panic: index out of range"

/-- Function `setAtPathOverwrite`: walk/create containers, overwriting any
incompatible intermediate value, and assign `val` at the last step. -/
def setAtPathOverwrite (root : MapV) : List Segment → Val → Except String MapV
  | [], _ => .ok root
  | [s], val =>
    match s.idx with
    | none => .ok (mapSet root s.key val)
    | some i =>
      let slice := expandSliceToIndex (ensureSliceOverwrite root s.key) i
      (listSetPanic slice i val).map (fun slice1 => mapSet root s.key (.arr slice1))
  | s :: s2 :: rest, val =>
    match s.idx with
    | none =>
      (setAtPathOverwrite (ensureNestedMap root s.key) (s2 :: rest) val).map
        (fun child1 => mapSet root s.key (.vmap child1))
    | some i =>
      let slice := expandSliceToIndex (ensureSliceOverwrite root s.key) i
      match ensureMapAtSliceIndex slice i with
      | .error e => .error e
      | .ok nextMap =>
        (setAtPathOverwrite nextMap (s2 :: rest) val).map
          (fun mm => mapSet root s.key (.arr (slice.set i.toNat (.vmap mm))))

/-- The assignment loop of `Set.Apply`. -/
def setLoop : List (String × Val) → MapV → Except String MapV
  | [], root => .ok root
  | (p, value) :: rest, root =>
    match parsePath p with
    | .error e => .error e
    | .ok segs =>
      match setAtPathOverwrite root segs value with
      | .error e => .error e
      | .ok root1 => setLoop rest root1

/-- Function `Set.Apply`: work on the input mapping, or a fresh empty mapping when
the input is anything else (including the Filtered sentinel). -/
def SetApply (assignments : List (String × Val)) (v : Val) : Except String Val :=
  let root : MapV :=
    match v with
    | .vmap m => m
    | _ => []
  (setLoop assignments root).map .vmap

/-! ## Operation: Delete (`operation/delete.go`)

`navigateToParent` executes `*cur = next` on its first iteration, which
overwrites the caller's root variable with the first child stepped into;
the functional model reproduces that faithfully. -/

/-- Function `stepIntoMap` followed by the optional `stepIntoSlice` (one loop
iteration of `navigateToParent`). -/
def stepFull (c : Val) (s : Segment) : Except String Val :=
  match c with
  | .vmap m =>
    match mapGet m s.key with
    | none => .error "key not found"
    | some child =>
      match s.idx with
      | none => .ok child
      | some i =>
        match child with
        | .arr xs =>
          if i < 0 ∨ (xs.length : Int) ≤ i then .error "index out of bounds"
          else .ok (xs.getD i.toNat .vnull)
        | _ => .error "not a slice"
  | _ => .error "not a map"

/-- Function `deleteFromSliceInMap`: remove `m[key][idx]` by a left shift; silent
no-op when anything is missing, of the wrong kind, or out of range. -/
def deleteFromSliceInMap (m : MapV) (key : String) (i : Int) : MapV :=
  match mapGet m key with
  | some (.arr xs) =>
    if i < 0 ∨ (xs.length : Int) ≤ i then m
    else mapSet m key (.arr (xs.take i.toNat ++ xs.drop (i.toNat + 1)))
  | _ => m

/-- Function `deleteFromParent`: delete the final segment from its parent (which
must be a mapping). -/
def deleteFromParentF (parent : Val) (last : Segment) : Val :=
  match parent with
  | .vmap m =>
    match last.idx with
    | none => .vmap (mapDel m last.key)
    | some i => .vmap (deleteFromSliceInMap m last.key i)
  | _ => parent

/-- Write an updated child back at segment `s` of `c` (the functional
image of Go's in-place mutation of the shared child). -/
def writeChild (c : Val) (s : Segment) (newChild : Val) : Val :=
  match c with
  | .vmap m =>
    match s.idx with
    | none => .vmap (mapSet m s.key newChild)
    | some i =>
      match mapGet m s.key with
      | some (.arr xs) => .vmap (mapSet m s.key (.arr (xs.set i.toNat newChild)))
      | _ => c
  | _ => c

/-- Iterations 2..k of `navigateToParent` plus `deleteFromParent`: walk
the remaining intermediate steps inside `c` and delete at the parent;
any failed step leaves `c` untouched. -/
def delMut (c : Val) : List Segment → Segment → Val
  | [], last => deleteFromParentF c last
  | s :: rest, last =>
    match stepFull c s with
    | .error _ => c
    | .ok child => writeChild c s (delMut child rest last)

/-- Total last element of a nonempty list. -/
def lastSeg (a : Segment) : List Segment → Segment
  | [] => a
  | b :: t => lastSeg b t

/-- Function `deleteAtPath`: with no intermediate steps the root itself is the
parent; otherwise the first successful step replaces the root (the
`*cur = next` write through the caller's pointer) and deletion proceeds
inside that child. -/
def deleteAtPathF (v : Val) : List Segment → Val
  | [] => v
  | [last] => deleteFromParentF v last
  | s1 :: s2 :: rest =>
    match stepFull v s1 with
    | .error _ => v
    | .ok c1 => delMut c1 ((s2 :: rest).dropLast) (lastSeg s2 rest)

/-- The expanded-path loop of `Delete.Apply`. -/
def deleteExpanded (v : Val) : List String → Except String Val
  | [] => .ok v
  | q :: qs =>
    match parsePath q with
    | .error e => .error e
    | .ok segs => deleteExpanded (deleteAtPathF v segs) qs

/-- Function `Delete.Apply`: expand each raw path against the current document
(falling back to the raw path when expansion is empty) and delete every
resulting concrete path in order. -/
def DeleteApply (paths : List String) (v : Val) : Except String Val :=
  match paths with
  | [] => .ok v
  | raw :: rest =>
    match expandWildcardPaths v raw with
    | .error e => .error e
    | .ok exp0 =>
      let expanded := if exp0.isEmpty then [raw] else exp0
      match deleteExpanded v expanded with
      | .error e => .error e
      | .ok v1 => DeleteApply rest v1

/-! ## Pipeline and orchestrator (`operation/pipeline.go`, `runner/app.go`) -/

/-- The operations `buildPipeline` can compose. -/
inductive Op where
  | opWhere (conds : List Cond)
  | opPick (paths : List String) (preserveHierarchy : Bool)
  | opSet (assignments : List (String × Val))
  | opDelete (paths : List String)
deriving Repr

def Op.apply : Op → Val → Except String Val
  | .opWhere conds, v => WhereApply conds v
  | .opPick paths ph, v => PickApply paths ph v
  | .opSet assignments, v => SetApply assignments v
  | .opDelete paths, v => DeleteApply paths v

/-- Function `Pipeline.Apply`: left-to-right, first error aborts. -/
def PipelineApply : List Op → Val → Except String Val
  | [], v => .ok v
  | op :: rest, v =>
    match op.apply v with
    | .error e => .error e
    | .ok v1 => PipelineApply rest v1

/-- The per-document emission decision of `runner.run`: a document is
written iff the pipeline succeeds and its output is not the Filtered
sentinel. -/
def runEmits (ops : List Op) (v : Val) : Bool :=
  match PipelineApply ops v with
  | .ok out => out ≠ .filtered
  | .error _ => false

/-! ## Spec-side predicates for the path-parser error contract (§4.1)

Written from the specification's and claim's wording, to be compared with
the behaviour of `parsePath`.  `specNonNegInt` reads "non-negative
integer" over unbounded integers (the claim as stated); `amendedIndexOk`
is the range-aware amendment matching `strconv.Atoi` on 64-bit Go. -/

/-- Did the call report an error? -/
def isErr {α : Type} (x : Except String α) : Bool :=
  match x with
  | .error _ => true
  | .ok _ => false

/-- The number a digit string denotes (0 for the empty string). -/
def digitsVal (ds : List Char) : Nat :=
  ds.foldl (fun a c => a * 10 + (c.toNat - '0'.toNat)) 0

/-- The claim's "index body is a non-negative integer", read over
unbounded integers: at least one digit, digits only. -/
def specNonNegInt (body : List Char) : Prop :=
  body.isEmpty = false ∧ body.all Char.isDigit = true

/-- Amended acceptance: the body denotes a non-negative integer
representable in a signed 64-bit int, with the optional leading sign
`strconv.Atoi` also accepts (a `-` sign only for value zero). -/
def amendedIndexOk (body : List Char) : Prop :=
  (body.head? = some '+' ∧ (body.drop 1).isEmpty = false ∧
     (body.drop 1).all Char.isDigit = true ∧ digitsVal (body.drop 1) ≤ 2 ^ 63 - 1) ∨
  (body.head? = some '-' ∧ (body.drop 1).isEmpty = false ∧
     (body.drop 1).all Char.isDigit = true ∧ digitsVal (body.drop 1) = 0) ∨
  (body.head? ≠ some '+' ∧ body.head? ≠ some '-' ∧ body.isEmpty = false ∧
     body.all Char.isDigit = true ∧ digitsVal body ≤ 2 ^ 63 - 1)

/-- The amended per-segment error condition: the fragment contains `[`
and either starts with it, or misses the trailing `]`, or has an empty
index body, or a body other than `*` that `strconv.Atoi` does not accept
as a non-negative 64-bit integer. -/
def segBadAmended (part : List Char) : Prop :=
  part.any (· = '[') = true ∧
    ((part.takeWhile (· ≠ '[')).isEmpty = true ∨ part.getLast? ≠ some ']' ∨
     (idxBodyOf part).isEmpty = true ∨
     (idxBodyOf part ≠ ['*'] ∧ ¬ amendedIndexOk (idxBodyOf part)))

/-- The claim's per-segment error condition as stated (unbounded
non-negative integers). -/
def claimSegBad (part : List Char) : Prop :=
  part.any (· = '[') = true ∧
    ((part.takeWhile (· ≠ '[')).isEmpty = true ∨ part.getLast? ≠ some ']' ∨
     (idxBodyOf part).isEmpty = true ∨
     (idxBodyOf part ≠ ['*'] ∧ ¬ specNonNegInt (idxBodyOf part)))

/-- The claim's whole-path error condition as stated. -/
def pathErrClaim (p : String) : Prop :=
  p = "" ∨ ∃ part ∈ splitOnChar '.' p.toList, claimSegBad part

instance (body : List Char) : Decidable (specNonNegInt body) := by
  unfold specNonNegInt
  infer_instance

instance (body : List Char) : Decidable (amendedIndexOk body) := by
  unfold amendedIndexOk
  infer_instance

instance (part : List Char) : Decidable (segBadAmended part) := by
  unfold segBadAmended
  infer_instance

instance (part : List Char) : Decidable (claimSegBad part) := by
  unfold claimSegBad
  infer_instance

instance (p : String) : Decidable (pathErrClaim p) := by
  unfold pathErrClaim
  infer_instance

/-- What the claim says a successful parse produces for one fragment:
the text before the first `[` (the whole fragment when there is none) as
the key, no index for a bare key, the wildcard marker `-1` for body `*`,
and the denoted index for a digits body. -/
def producedSeg (part : List Char) (s : Segment) : Prop :=
  s.key = String.mk (part.takeWhile (· ≠ '[')) ∧
  (¬ part.any (· = '[') = true → s = ⟨String.mk part, none⟩) ∧
  (part.any (· = '[') = true → idxBodyOf part = ['*'] → s.idx = some (-1)) ∧
  (part.any (· = '[') = true → (idxBodyOf part).all Char.isDigit = true →
     s.idx = some ((digitsVal (idxBodyOf part) : Int)))

/-! # Shared lemmas -/

theorem mapGet_mapSet_self (m : MapV) (k : String) (v : Val) :
    mapGet (mapSet m k v) k = some v := by
  induction m with
  | nil => simp [mapSet, mapGet]
  | cons p rest ih =>
    obtain ⟨k1, w⟩ := p
    by_cases h : k1 = k <;> simp [mapSet, mapGet, h, ih]

theorem matchesCond_iff (d : Val) (c : Cond) :
    matchesCond d c = true ↔
      ∃ fv, navigatePath d c.path = .ok fv ∧ fmtV fv = c.value := by
  unfold matchesCond
  cases h : navigatePath d c.path with
  | ok fv => simp [decide_eq_true_iff]
  | error e => simp

theorem whereLoop_eq (d : Val) (conds : List Cond) :
    whereLoop d conds = if conds.all (matchesCond d) then d else .filtered := by
  induction conds with
  | nil => simp [whereLoop]
  | cons c rest ih =>
    by_cases h : matchesCond d c <;> simp [whereLoop, h, ih]

theorem whereLoop_filtered_of_mem (d : Val) (conds : List Cond) (c : Cond)
    (hc : c ∈ conds) (hm : matchesCond d c = false) : whereLoop d conds = .filtered := by
  have hfalse : ¬ (conds.all (matchesCond d) = true) := fun hall => by
    have := List.all_eq_true.mp hall c hc
    rw [hm] at this
    cases this
  rw [whereLoop_eq, if_neg hfalse]

theorem navigatePath_wildcard_err (path : List Segment) :
    ∀ (v : Val), (∃ s ∈ path, s.idx = some (-1)) → ∀ r, navigatePath v path ≠ .ok r := by
  induction path with
  | nil =>
    rintro v ⟨s, hs, _⟩
    cases hs
  | cons seg rest ih =>
    rintro v ⟨s, hs, hidx⟩ r
    rcases List.mem_cons.mp hs with h | h
    · subst h
      cases v with
      | vmap m =>
        cases hget : mapGet m s.key with
        | none => simp [navigatePath, hget]
        | some val => cases val <;> simp [navigatePath, hget, hidx]
      | arr xs => simp [navigatePath, hidx]
      | vnull => simp [navigatePath]
      | vbool b => simp [navigatePath]
      | vnum n => simp [navigatePath]
      | vstr s1 => simp [navigatePath]
      | filtered => simp [navigatePath]
    · cases v with
      | vmap m =>
        cases hget : mapGet m seg.key with
        | none => simp [navigatePath, hget]
        | some val =>
          cases hix : seg.idx with
          | none => simpa [navigatePath, hget, hix] using ih val ⟨s, h, hidx⟩ r
          | some i =>
            cases val <;> simp [navigatePath, hget, hix]
            split
            · simp
            · exact ih _ ⟨s, h, hidx⟩ r
      | arr xs =>
        cases hix : seg.idx with
        | none => simp [navigatePath, hix]
        | some i =>
          simp [navigatePath, hix]
          split
          · simp
          · exact ih _ ⟨s, h, hidx⟩ r
      | vnull => simp [navigatePath]
      | vbool b => simp [navigatePath]
      | vnum n => simp [navigatePath]
      | vstr s1 => simp [navigatePath]
      | filtered => simp [navigatePath]

/-! # Claim C4: Where characterization and conjunction -/

/-- C4: `Where.Apply(d)` returns `d` unchanged iff for every configured
condition the navigator resolves the condition's path in `d` and the
`%v`-stringification of the resolved value equals the expected string;
otherwise it returns the Filtered marker, never an error.  A document
matches conditions `[c1, c2]` iff it matches each individually, and
removing any one condition can only add matching documents. -/
theorem whereApply_characterization (conds : List Cond) (d : Val) (hd : d ≠ Val.filtered) :
    (WhereApply conds d = .ok d ↔
       ∀ c ∈ conds, ∃ fv, navigatePath d c.path = .ok fv ∧ fmtV fv = c.value) ∧
    ((¬ ∀ c ∈ conds, ∃ fv, navigatePath d c.path = .ok fv ∧ fmtV fv = c.value) →
       WhereApply conds d = .ok .filtered) ∧
    (∃ r, WhereApply conds d = .ok r) ∧
    (∀ c1 c2 : Cond, WhereApply [c1, c2] d = .ok d ↔
       (WhereApply [c1] d = .ok d ∧ WhereApply [c2] d = .ok d)) ∧
    (∀ (pre : List Cond) (c : Cond) (post : List Cond),
       WhereApply (pre ++ c :: post) d = .ok d → WhereApply (pre ++ post) d = .ok d) := by
  have hall : ∀ (cs : List Cond), cs.all (matchesCond d) = true ↔
      ∀ c ∈ cs, ∃ fv, navigatePath d c.path = .ok fv ∧ fmtV fv = c.value := by
    intro cs
    rw [List.all_eq_true]
    exact forall₂_congr (fun c _ => matchesCond_iff d c)
  have hiff : ∀ (cs : List Cond), WhereApply cs d = .ok d ↔
      ∀ c ∈ cs, ∃ fv, navigatePath d c.path = .ok fv ∧ fmtV fv = c.value := by
    intro cs
    rw [WhereApply, whereLoop_eq]
    by_cases h : cs.all (matchesCond d)
    · rw [if_pos h]
      exact iff_of_true rfl ((hall cs).mp h)
    · rw [if_neg h]
      simp only [Except.ok.injEq]
      constructor
      · intro hbad
        exact absurd hbad.symm hd
      · intro hforall
        exact absurd ((hall cs).mpr hforall) h
  refine ⟨hiff conds, ?_, ?_, ?_, ?_⟩
  · intro hnot
    rw [WhereApply, whereLoop_eq, if_neg (fun h => hnot ((hall conds).mp h))]
  · exact ⟨whereLoop d conds, rfl⟩
  · intro c1 c2
    rw [hiff [c1, c2], hiff [c1], hiff [c2]]
    simp
  · intro pre c post
    rw [hiff (pre ++ c :: post), hiff (pre ++ post)]
    intro hmatch q hq
    apply hmatch
    rcases List.mem_append.mp hq with h | h
    · exact List.mem_append.mpr (Or.inl h)
    · exact List.mem_append.mpr (Or.inr (List.mem_cons_of_mem c h))

/-- Witness for C4: the spec's own scenario, conditions
`name=Alice AND age=30` against a matching document. -/
theorem whereApply_characterization_witness :
    WhereApply [⟨[⟨"name", none⟩], "Alice"⟩, ⟨[⟨"age", none⟩], "30"⟩]
      (.vmap [("name", .vstr "Alice"), ("age", .vnum 30)]) =
      .ok (.vmap [("name", .vstr "Alice"), ("age", .vnum 30)]) :=
  (whereApply_characterization _ _ (by decide)).1.mpr (by
    intro c hc
    rcases List.mem_cons.mp hc with h | h
    · subst h
      exact ⟨.vstr "Alice", by decide, by decide⟩
    · rcases List.mem_cons.mp h with h1 | h1
      · subst h1
        exact ⟨.vnum 30, by decide, by decide⟩
      · cases h1)

/-! # Claim C9: a wildcard Where condition never matches -/

/-- C9: a Where holding a condition whose path contains the wildcard step
(stored by the parser as index `-1`) returns the Filtered marker for every
input document: the Where navigator rejects any negative index. -/
theorem whereApply_wildcard_filters (conds : List Cond) (d : Val) (c : Cond)
    (hc : c ∈ conds) (hw : ∃ s ∈ c.path, s.idx = some (-1)) :
    WhereApply conds d = .ok .filtered := by
  have hm : matchesCond d c = false := by
    unfold matchesCond
    cases hnav : navigatePath d c.path with
    | ok fv => exact absurd hnav (navigatePath_wildcard_err c.path d hw fv)
    | error e => rfl
  rw [WhereApply, whereLoop_filtered_of_mem d conds c hc hm]

/-- Witness for C9: the condition `items[*]=1` (parsed index `-1`)
filters out a document that does hold `items = [1]`. -/
theorem whereApply_wildcard_filters_witness :
    WhereApply [⟨[⟨"items", some (-1)⟩], "1"⟩] (.vmap [("items", .arr [.vnum 1])]) =
      .ok .filtered :=
  whereApply_wildcard_filters _ _ ⟨[⟨"items", some (-1)⟩], "1"⟩ (by simp)
    ⟨⟨"items", some (-1)⟩, by simp, rfl⟩

/-! # Claim C6: wildcard expansion -/

theorem wildLoop_singleton (f : Val → String → List String) (hf : ∀ e p, f e p = [p]) :
    ∀ (xs : List Val) (n : Nat) (base : String),
      wildLoop f xs n base = (List.range' n xs.length).map (fun i => idxSuffix base i) := by
  intro xs
  induction xs with
  | nil => intro n base; simp [wildLoop]
  | cons x xs ih =>
    intro n base
    simp [wildLoop, hf, List.range'_succ, ih n.succ base]

/-- C6: expanding `items[*]` against a document whose key `items` holds a
sequence of length `N` yields exactly the `N` concrete paths `items[i]`
in ascending index order; in general expansion fails exactly on path-parse
failures, and a path whose first step misses (absent key or non-mapping
document) expands to the empty list rather than an error. -/
theorem expandWildcard_spec :
    (∀ (m : MapV) (xs : List Val), mapGet m "items" = some (.arr xs) →
       expandWildcardPaths (.vmap m) "items[*]" =
         .ok ((List.range xs.length).map (fun i => idxSuffix "items" i))) ∧
    (∀ (d : Val) (p : String) (e : String),
       parsePath p = .error e → expandWildcardPaths d p = .error e) ∧
    (∀ (d : Val) (p : String) (segs : List Segment),
       parsePath p = .ok segs → expandWildcardPaths d p = .ok (expandSegments segs d "")) ∧
    (∀ (d : Val) (p : String) (s : Segment) (rest : List Segment),
       parsePath p = .ok (s :: rest) → s.key ≠ "" →
       (∀ m, d = .vmap m → mapGet m s.key = none) →
       expandWildcardPaths d p = .ok []) := by
  have hok : ∀ (d : Val) (p : String) (segs : List Segment),
      parsePath p = .ok segs → expandWildcardPaths d p = .ok (expandSegments segs d "") := by
    intro d p segs h
    rw [expandWildcardPaths, h]
    rfl
  refine ⟨?_, ?_, hok, ?_⟩
  · intro m xs hget
    have hp : parsePath "items[*]" = .ok [⟨"items", some (-1)⟩] := by decide
    rw [hok (.vmap m) "items[*]" [⟨"items", some (-1)⟩] hp]
    have hkey : (⟨"items", some (-1)⟩ : Segment).key ≠ "" := by decide
    simp only [expandSegments, hget, if_neg (by decide : ¬("items" : String) = ""), if_true]
    rw [wildLoop_singleton (fun elem pth => [pth]) (fun e p => rfl) xs 0
      (buildPath "" "items"), List.range_eq_range' xs.length]
    rfl
  · intro d p e h
    rw [expandWildcardPaths, h]
    rfl
  · intro d p s rest hp hkey hmiss
    rw [hok d p (s :: rest) hp]
    have : expandSegments (s :: rest) d "" = [] := by
      cases d with
      | vmap m => simp [expandSegments, hkey, hmiss m rfl]
      | vnull => simp [expandSegments, hkey]
      | vbool b => simp [expandSegments, hkey]
      | vnum n => simp [expandSegments, hkey]
      | vstr s1 => simp [expandSegments, hkey]
      | arr xs => simp [expandSegments, hkey]
      | filtered => simp [expandSegments, hkey]
    rw [this]

/-- Witness for C6: `items[*]` on a two-element `items` array expands to
`["items[0]", "items[1]"]`. -/
theorem expandWildcard_spec_witness :
    expandWildcardPaths (.vmap [("items", .arr [.vnum 7, .vnum 8])]) "items[*]" =
      .ok ((List.range [Val.vnum 7, Val.vnum 8].length).map (fun i => idxSuffix "items" i)) :=
  expandWildcard_spec.1 [("items", .arr [.vnum 7, .vnum 8])] [.vnum 7, .vnum 8] (by decide)

/-! # Claim C8: array-element delete -/

/-- C8: for a mapping whose `key` holds a sequence of length `N` and an
index `i < N`, `deleteFromSliceInMap` stores back the sequence with
element `i` removed: length `N − 1`, earlier elements unchanged, later
elements shifted left by one. -/
theorem deleteFromSliceInMap_spec (m : MapV) (key : String) (xs : List Val) (i : Nat)
    (hget : mapGet m key = some (.arr xs)) (hi : i < xs.length) :
    deleteFromSliceInMap m key (i : Int) =
      mapSet m key (.arr (xs.take i ++ xs.drop (i + 1))) ∧
    (xs.take i ++ xs.drop (i + 1)).length = xs.length - 1 ∧
    (∀ j, j < i → (xs.take i ++ xs.drop (i + 1))[j]? = xs[j]?) ∧
    (∀ j, i ≤ j → (xs.take i ++ xs.drop (i + 1))[j]? = xs[j + 1]?) := by
  have hlen : (xs.take i).length = i := by
    simp only [List.length_take]
    omega
  refine ⟨?_, ?_, ?_, ?_⟩
  · simp only [deleteFromSliceInMap, hget]
    rw [if_neg (by omega)]
    simp
  · simp only [List.length_append, List.length_take, List.length_drop]
    omega
  · intro j hj
    simp [List.getElem?_append, List.getElem?_take, hlen, hj]
  · intro j hj
    rw [List.getElem?_append_right (by rw [hlen]; exact hj), hlen, List.getElem?_drop]
    congr 1
    omega

/-- Witness for C8: deleting `items[1]` from `["first","second","third"]`. -/
theorem deleteFromSliceInMap_spec_witness :
    deleteFromSliceInMap [("items", .arr [.vstr "first", .vstr "second", .vstr "third"])]
      "items" ((1 : Nat) : Int) =
      mapSet [("items", .arr [.vstr "first", .vstr "second", .vstr "third"])] "items"
        (.arr ([Val.vstr "first", .vstr "second", .vstr "third"].take 1 ++
               [Val.vstr "first", .vstr "second", .vstr "third"].drop 2)) :=
  (deleteFromSliceInMap_spec _ "items" _ 1 (by decide) (by decide)).1

/-! # Parser output shape -/

/-- Any index the segment parser produces is the wildcard `-1` or a
non-negative concrete index. -/
theorem parseSegment_idx (part : List Char) (s : Segment) (h : parseSegment part = .ok s) :
    ∀ i, s.idx = some i → i = -1 ∨ 0 ≤ i := by
  intro i hi
  simp only [parseSegment] at h
  split at h
  · obtain rfl := Except.ok.inj h
    cases hi
  · split at h
    · cases h
    · split at h
      · cases h
      · split at h
        · obtain rfl := Except.ok.inj h
          simp only [Option.some.injEq] at hi
          omega
        · split at h
          next n hn =>
            split at h
            · cases h
            · obtain rfl := Except.ok.inj h
              simp only [Option.some.injEq] at hi
              omega
          next => cases h

theorem parseSegsList_idx (parts : List (List Char)) (segs : List Segment)
    (h : parseSegsList parts = .ok segs) :
    ∀ s ∈ segs, ∀ i, s.idx = some i → i = -1 ∨ 0 ≤ i := by
  induction parts generalizing segs with
  | nil =>
    simp only [parseSegsList] at h
    injection h with h1
    subst h1
    intro s hs
    cases hs
  | cons part rest ih =>
    unfold parseSegsList at h
    cases hps : parseSegment part with
    | error e => rw [hps] at h; cases h
    | ok s0 =>
      rw [hps] at h
      cases hrest : parseSegsList rest with
      | error e => rw [hrest] at h; cases h
      | ok segs0 =>
        rw [hrest] at h
        injection h with h1
        subst h1
        intro s hs i hi
        rcases List.mem_cons.mp hs with h2 | h2
        · subst h2
          exact parseSegment_idx part s hps i hi
        · exact ih segs0 hrest s h2 i hi

theorem parsePath_idx (p : String) (segs : List Segment) (h : parsePath p = .ok segs) :
    ∀ s ∈ segs, ∀ i, s.idx = some i → i = -1 ∨ 0 ≤ i := by
  unfold parsePath at h
  split at h
  · cases h
  · exact parseSegsList_idx _ _ h

/-- The parser never produces an empty segment list (splitting always
yields at least one fragment). -/
theorem parsePath_ne_nil (p : String) (segs : List Segment) (h : parsePath p = .ok segs) :
    segs ≠ [] := by
  unfold parsePath at h
  split at h
  · cases h
  · rename_i hne
    have hsplit : splitOnChar '.' p.toList ≠ [] := by
      cases hp : p.toList with
      | nil => simp [splitOnChar]
      | cons c cs =>
        simp only [splitOnChar]
        split
        · simp
        · split <;> simp
    cases hparts : splitOnChar '.' p.toList with
    | nil => exact absurd hparts hsplit
    | cons part rest =>
      rw [hparts] at h
      unfold parseSegsList at h
      cases hps : parseSegment part with
      | error e => rw [hps] at h; cases h
      | ok s0 =>
        rw [hps] at h
        cases hrest : parseSegsList rest with
        | error e => rw [hrest] at h; cases h
        | ok segs0 =>
          rw [hrest] at h
          injection h with h1
          subst h1
          simp

/-! # Set helpers -/

theorem expandSlice_toNat_lt (xs : List Val) (i : Int) (h : 0 ≤ i) :
    i.toNat < (expandSliceToIndex xs i).length := by
  unfold expandSliceToIndex
  split
  · omega
  · simp only [List.length_append, List.length_replicate]
    omega

theorem getD_set_self (xs : List Val) (j : Nat) (v : Val) (h : j < xs.length) :
    (xs.set j v).getD j .vnull = v := by
  rw [List.getD_eq_getElem?_getD, List.getElem?_set_self (by simpa using h)]
  rfl

/-- One key-only step of `getAtPath` into a mapping. -/
theorem getAtPath_key_none (m : MapV) (s : Segment) (rest : List Segment) (c1 : Val)
    (hk : s.key ≠ "") (hg : mapGet m s.key = some c1) (hix : s.idx = none) :
    getAtPath (.vmap m) (s :: rest) = getAtPath c1 rest := by
  simp [getAtPath, hk, hg, hix]

/-- One key-plus-index step of `getAtPath` into a mapping holding a
sequence. -/
theorem getAtPath_key_idx (m : MapV) (s : Segment) (rest : List Segment) (xs : List Val)
    (i : Int) (hk : s.key ≠ "") (hg : mapGet m s.key = some (.arr xs)) (hix : s.idx = some i)
    (hb : ¬(i < 0 ∨ (xs.length : Int) ≤ i)) :
    getAtPath (.vmap m) (s :: rest) = getAtPath (xs.getD i.toNat .vnull) rest := by
  simp only [getAtPath, hg, hix, ne_eq, hk, not_false_iff, if_pos]
  rw [if_neg hb]

/-- Core of the get/set inverse: on any starting mapping, setting then
getting along the same wildcard-free, empty-key-free steps recovers the
value. -/
theorem setOverwrite_get_core :
    ∀ (segs : List Segment) (root : MapV) (v : Val),
      segs ≠ [] →
      (∀ s ∈ segs, s.key ≠ "" ∧ ∀ i, s.idx = some i → 0 ≤ i) →
      ∃ m, setAtPathOverwrite root segs v = .ok m ∧ getAtPath (.vmap m) segs = some v := by
  intro segs
  induction segs with
  | nil => intro root v hne _; exact absurd rfl hne
  | cons s rest ih =>
    intro root v _ hshape
    obtain ⟨hkey, hidx⟩ := hshape s (by simp)
    have hshape' : ∀ t ∈ rest, t.key ≠ "" ∧ ∀ i, t.idx = some i → 0 ≤ i :=
      fun t ht => hshape t (by simp [ht])
    cases rest with
    | nil =>
      cases hix : s.idx with
      | none =>
        refine ⟨mapSet root s.key v, ?_, ?_⟩
        · simp [setAtPathOverwrite, hix]
        · rw [getAtPath_key_none _ s [] v hkey (mapGet_mapSet_self root s.key v) hix]
          rfl
      | some i =>
        have hi : 0 ≤ i := hidx i hix
        have hlen := expandSlice_toNat_lt (ensureSliceOverwrite root s.key) i hi
        refine ⟨mapSet root s.key
          (.arr ((expandSliceToIndex (ensureSliceOverwrite root s.key) i).set i.toNat v)),
          ?_, ?_⟩
        · simp only [setAtPathOverwrite, hix, listSetPanic]
          rw [if_pos ⟨hi, by omega⟩]
          rfl
        · rw [getAtPath_key_idx _ s [] _ i hkey (mapGet_mapSet_self root s.key _) hix
            (by simp only [List.length_set]; omega)]
          rw [getD_set_self _ _ _ hlen]
          rfl
    | cons s2 rest2 =>
      cases hix : s.idx with
      | none =>
        obtain ⟨m', hset, hget⟩ :=
          ih (ensureNestedMap root s.key) v (by simp) hshape'
        refine ⟨mapSet root s.key (.vmap m'), ?_, ?_⟩
        · simp [setAtPathOverwrite, hix, hset, Except.map]
        · rw [getAtPath_key_none _ s (s2 :: rest2) (.vmap m') hkey
            (mapGet_mapSet_self root s.key _) hix]
          exact hget
      | some i =>
        have hi : 0 ≤ i := hidx i hix
        have hlen := expandSlice_toNat_lt (ensureSliceOverwrite root s.key) i hi
        obtain ⟨nm, hnm⟩ : ∃ nm,
            ensureMapAtSliceIndex (expandSliceToIndex (ensureSliceOverwrite root s.key) i) i =
              .ok nm := by
          unfold ensureMapAtSliceIndex
          rw [if_pos ⟨hi, by omega⟩]
          cases (expandSliceToIndex (ensureSliceOverwrite root s.key) i).getD i.toNat .vnull <;>
            exact ⟨_, rfl⟩
        obtain ⟨m', hset, hget⟩ := ih nm v (by simp) hshape'
        refine ⟨mapSet root s.key
          (.arr ((expandSliceToIndex (ensureSliceOverwrite root s.key) i).set i.toNat
            (.vmap m'))), ?_, ?_⟩
        · simp [setAtPathOverwrite, hix, hnm, hset, Except.map]
        · rw [getAtPath_key_idx _ s (s2 :: rest2) _ i hkey (mapGet_mapSet_self root s.key _) hix
            (by simp only [List.length_set]; omega)]
          rw [getD_set_self _ _ _ hlen]
          exact hget


/-- Function `setAtPathOverwrite` succeeds on any wildcard-free steps. -/
theorem setOverwrite_ok :
    ∀ (segs : List Segment) (root : MapV) (v : Val),
      (∀ s ∈ segs, ∀ i, s.idx = some i → 0 ≤ i) →
      ∃ m, setAtPathOverwrite root segs v = .ok m := by
  intro segs
  induction segs with
  | nil => intro root v _; exact ⟨root, rfl⟩
  | cons s rest ih =>
    intro root v hshape
    have hidx := hshape s (by simp)
    have hshape' : ∀ t ∈ rest, ∀ i, t.idx = some i → 0 ≤ i :=
      fun t ht => hshape t (by simp [ht])
    cases rest with
    | nil =>
      cases hix : s.idx with
      | none => exact ⟨mapSet root s.key v, by simp [setAtPathOverwrite, hix]⟩
      | some i =>
        have hi := hidx i hix
        have hlen := expandSlice_toNat_lt (ensureSliceOverwrite root s.key) i hi
        refine ⟨mapSet root s.key
          (.arr ((expandSliceToIndex (ensureSliceOverwrite root s.key) i).set i.toNat v)), ?_⟩
        simp only [setAtPathOverwrite, hix, listSetPanic]
        rw [if_pos ⟨hi, by omega⟩]
        rfl
    | cons s2 rest2 =>
      cases hix : s.idx with
      | none =>
        obtain ⟨m1, hm1⟩ := ih (ensureNestedMap root s.key) v hshape'
        exact ⟨mapSet root s.key (.vmap m1),
          by simp [setAtPathOverwrite, hix, hm1, Except.map]⟩
      | some i =>
        have hi := hidx i hix
        have hlen := expandSlice_toNat_lt (ensureSliceOverwrite root s.key) i hi
        obtain ⟨nm, hnm⟩ : ∃ nm,
            ensureMapAtSliceIndex (expandSliceToIndex (ensureSliceOverwrite root s.key) i) i =
              .ok nm := by
          unfold ensureMapAtSliceIndex
          rw [if_pos ⟨hi, by omega⟩]
          cases (expandSliceToIndex (ensureSliceOverwrite root s.key) i).getD i.toNat .vnull <;>
            exact ⟨_, rfl⟩
        obtain ⟨m1, hm1⟩ := ih nm v hshape'
        exact ⟨mapSet root s.key
          (.arr ((expandSliceToIndex (ensureSliceOverwrite root s.key) i).set i.toNat
            (.vmap m1))),
          by simp [setAtPathOverwrite, hix, hnm, hm1, Except.map]⟩

/-- The assignment loop of Set succeeds when every path is parseable and
wildcard-free. -/
theorem setLoop_ok (assignments : List (String × Val)) :
    ∀ root, (∀ pr ∈ assignments, ∃ segs, parsePath pr.1 = .ok segs ∧
        ∀ s ∈ segs, ∀ i, s.idx = some i → 0 ≤ i) →
      ∃ m, setLoop assignments root = .ok m := by
  induction assignments with
  | nil => intro root _; exact ⟨root, rfl⟩
  | cons pr rest ih =>
    intro root hpr
    obtain ⟨p, value⟩ := pr
    obtain ⟨segs, hps, hsh⟩ := hpr (p, value) (by simp)
    obtain ⟨m1, hm1⟩ := setOverwrite_ok segs root value hsh
    obtain ⟨m, hm⟩ := ih m1 (fun q hq => hpr q (by simp [hq]))
    exact ⟨m, by simp [setLoop, hps, hm1, hm]⟩

/-! # Claim C3 (amended): get/set inverse -/

/-- C3 (amended): for every path accepted by the parser that contains no
wildcard marker and no empty segment, setting a value at the path with
overwrite semantics on a fresh empty mapping and getting it back yields
`(v, true)`.  (Paths with an empty segment, such as `"a."`, are accepted
by the parser but break the inverse: see the counterexample.) -/
theorem set_get_inverse (p : String) (segs : List Segment) (v : Val)
    (hp : parsePath p = .ok segs)
    (hnw : ∀ s ∈ segs, s.idx ≠ some (-1))
    (hk : ∀ s ∈ segs, s.key ≠ "") :
    ∃ m, setAtPathOverwrite [] segs v = .ok m ∧ getAtPath (.vmap m) segs = some v := by
  apply setOverwrite_get_core segs [] v (parsePath_ne_nil p segs hp)
  intro s hs
  refine ⟨hk s hs, fun i hi => ?_⟩
  rcases parsePath_idx p segs hp s hs i hi with h | h
  · rw [h] at hi
    exact absurd hi (hnw s hs)
  · exact h

/-- Witness for C3: the path `a.b[2]`. -/
theorem set_get_inverse_witness :
    setAtPathOverwrite [] [⟨"a", none⟩, ⟨"b", some 2⟩] (.vnum 42) =
      .ok [("a", .vmap [("b", .arr [.vnull, .vnull, .vnum 42])])] ∧
    getAtPath (.vmap [("a", .vmap [("b", .arr [.vnull, .vnull, .vnum 42])])])
      [⟨"a", none⟩, ⟨"b", some 2⟩] = some (.vnum 42) := by
  obtain ⟨m, hset, hget⟩ := set_get_inverse "a.b[2]" [⟨"a", none⟩, ⟨"b", some 2⟩] (.vnum 42)
    (by decide) (by decide) (by decide)
  have hm : m = [("a", .vmap [("b", .arr [.vnull, .vnull, .vnum 42])])] := by
    have h0 : setAtPathOverwrite [] [⟨"a", none⟩, ⟨"b", some 2⟩] (.vnum 42) =
        .ok [("a", .vmap [("b", .arr [.vnull, .vnull, .vnum 42])])] := by decide
    rw [h0] at hset
    exact (Except.ok.inj hset).symm
  rw [hm] at hset hget
  exact ⟨hset, hget⟩

/-- Counterexample to C3 as stated: `"a."` is accepted by the parser and
contains no wildcard, yet set-then-get returns the mapping that wraps the
value (get skips the empty key that set wrote), not the value itself. -/
theorem set_get_inverse_counterexample :
    parsePath "a." = .ok [⟨"a", none⟩, ⟨"", none⟩] ∧
    setAtPathOverwrite [] [⟨"a", none⟩, ⟨"", none⟩] (.vnum 42) =
      .ok [("a", .vmap [("", .vnum 42)])] ∧
    getAtPath (.vmap [("a", .vmap [("", .vnum 42)])]) [⟨"a", none⟩, ⟨"", none⟩] ≠
      some (.vnum 42) := by
  refine ⟨by decide, by decide, by decide⟩

/-! # Claim C5 (amended): Set always succeeds by coercing structure -/

/-- C5 (amended): for wildcard-free parseable assignments, Set never
returns an error and produces a mapping; a non-mapping input document is
replaced by a fresh empty mapping; an incompatible intermediate value is
overwritten with the needed container (empty mapping or empty slice); a
slice shorter than a required index grows to exactly `index+1` slots with
null fill and a long-enough slice is never shrunk; the terminal step
assigns the value directly.  (A parseable path containing the wildcard
drives the Go code into a negative slice index, a panic: see the
counterexample.) -/
theorem setApply_spec :
    (∀ (assignments : List (String × Val)) (v : Val),
       (∀ pr ∈ assignments, ∃ segs, parsePath pr.1 = .ok segs ∧
          ∀ s ∈ segs, ∀ i, s.idx = some i → 0 ≤ i) →
       ∃ m, SetApply assignments v = .ok (.vmap m)) ∧
    (∀ (assignments : List (String × Val)) (v : Val),
       (∀ mm : MapV, v ≠ .vmap mm) →
       SetApply assignments v = SetApply assignments (.vmap [])) ∧
    (∀ (xs : List Val) (i : Int), 0 ≤ i →
       ((xs.length : Int) ≤ i →
          expandSliceToIndex xs i = xs ++ List.replicate (i.toNat + 1 - xs.length) .vnull ∧
          (expandSliceToIndex xs i).length = i.toNat + 1) ∧
       (i < (xs.length : Int) → expandSliceToIndex xs i = xs)) ∧
    (∀ (m : MapV) (key : String),
       (∀ mm : MapV, mapGet m key ≠ some (.vmap mm)) → ensureNestedMap m key = []) ∧
    (∀ (m : MapV) (key : String),
       (∀ xs : List Val, mapGet m key ≠ some (.arr xs)) → ensureSliceOverwrite m key = []) ∧
    (∀ (root : MapV) (k : String) (v : Val),
       setAtPathOverwrite root [⟨k, none⟩] v = .ok (mapSet root k v) ∧
       mapGet (mapSet root k v) k = some v) ∧
    (∀ (root : MapV) (k : String) (i : Nat) (v : Val),
       ∃ slice, setAtPathOverwrite root [⟨k, some (i : Int)⟩] v =
           .ok (mapSet root k (.arr slice)) ∧ slice[i]? = some v) := by
  refine ⟨?_, ?_, ?_, ?_, ?_, ?_, ?_⟩
  · intro assignments v hpr
    obtain ⟨m, hm⟩ := setLoop_ok assignments
      (match v with | .vmap mm => mm | _ => []) hpr
    exact ⟨m, by simp [SetApply, hm, Except.map]⟩
  · intro assignments v hv
    cases v with
    | vmap mm => exact absurd rfl (hv mm)
    | vnull => rfl
    | vbool b => rfl
    | vnum n => rfl
    | vstr s => rfl
    | arr xs => rfl
    | filtered => rfl
  · intro xs i hi
    constructor
    · intro hge
      unfold expandSliceToIndex
      rw [if_neg (by omega)]
      constructor
      · rfl
      · simp only [List.length_append, List.length_replicate]
        omega
    · intro hlt
      unfold expandSliceToIndex
      rw [if_pos hlt]
  · intro m key h
    unfold ensureNestedMap
    cases hg : mapGet m key with
    | none => rfl
    | some val => cases val <;> first | rfl | exact absurd hg (h _)
  · intro m key h
    unfold ensureSliceOverwrite
    cases hg : mapGet m key with
    | none => rfl
    | some val => cases val <;> first | rfl | exact absurd hg (h _)
  · intro root k v
    exact ⟨by simp [setAtPathOverwrite], mapGet_mapSet_self root k v⟩
  · intro root k i v
    have hi : (0 : Int) ≤ (i : Int) := by omega
    have hlen := expandSlice_toNat_lt (ensureSliceOverwrite root k) (i : Int) hi
    refine ⟨(expandSliceToIndex (ensureSliceOverwrite root k) (i : Int)).set (i : Int).toNat v,
      ?_, ?_⟩
    · simp only [setAtPathOverwrite, listSetPanic]
      rw [if_pos ⟨hi, by omega⟩]
      rfl
    · rw [show ((i : Int).toNat) = i by omega] at hlen ⊢
      exact List.getElem?_set_self (by simpa using hlen)

/-- Witness for C5: the spec scenario, `a.b.c=42` applied to a non-mapping
input (null). -/
theorem setApply_spec_witness :
    SetApply [("a.b.c", .vnum 42)] .vnull =
      .ok (.vmap [("a", .vmap [("b", .vmap [("c", .vnum 42)])])]) := by
  obtain ⟨m, hm⟩ := setApply_spec.1 [("a.b.c", .vnum 42)] .vnull (by
    intro pr hpr
    simp only [List.mem_singleton] at hpr
    subst hpr
    exact ⟨[⟨"a", none⟩, ⟨"b", none⟩, ⟨"c", none⟩], by decide, by decide⟩)
  have h0 : SetApply [("a.b.c", .vnum 42)] .vnull =
      .ok (.vmap [("a", .vmap [("b", .vmap [("c", .vnum 42)])])]) := by decide
  exact hm.trans (hm.symm.trans h0)

/-- Counterexample to C5 as stated: the parseable assignment path `a[*]`
drives Set into a negative slice index (`slice[-1] = v` in Go, a runtime
panic, modelled as an error): Set does not succeed on every parseable
assignment list. -/
theorem setApply_wildcard_panics :
    SetApply [("a[*]", .vnum 1)] (.vmap []) = .error "panic: index out of range" := by
  decide

/-! # Claim C10: Set after Where resurrects filtered documents -/

/-- C10: in a pipeline `[Where, Set]`, whenever Where filters a document
the Set step receives the sentinel, which is not a mapping, so it starts
from a fresh empty mapping holding only its own assignments; the pipeline
output is that mapping, never the Filtered marker, and the orchestrator
emits it instead of dropping the document. -/
theorem pipeline_set_after_where (conds : List Cond) (assignments : List (String × Val))
    (d : Val) (hw : WhereApply conds d = .ok .filtered)
    (hp : ∀ pr ∈ assignments, ∃ segs, parsePath pr.1 = .ok segs ∧
       ∀ s ∈ segs, ∀ i, s.idx = some i → 0 ≤ i) :
    PipelineApply [.opWhere conds, .opSet assignments] d =
      SetApply assignments (.vmap []) ∧
    (∃ m, PipelineApply [.opWhere conds, .opSet assignments] d = .ok (.vmap m)) ∧
    runEmits [.opWhere conds, .opSet assignments] d = true := by
  have h1 : PipelineApply [.opWhere conds, .opSet assignments] d =
      SetApply assignments .filtered := by
    simp only [PipelineApply, Op.apply, hw]
    cases h : SetApply assignments Val.filtered <;> simp [h]
  have h2 : SetApply assignments Val.filtered = SetApply assignments (.vmap []) := rfl
  obtain ⟨m, hm⟩ := setLoop_ok assignments [] hp
  have h3 : SetApply assignments (.vmap []) = .ok (.vmap m) := by
    simp [SetApply, hm, Except.map]
  refine ⟨h1.trans h2, ⟨m, by rw [h1, h2, h3]⟩, ?_⟩
  rw [runEmits, h1, h2, h3]
  simp

/-- Witness for C10: condition `x=1` filters `{}` and the following Set
`a=2` emits `{"a": 2}`. -/
theorem pipeline_set_after_where_witness :
    PipelineApply [.opWhere [⟨[⟨"x", none⟩], "1"⟩], .opSet [("a", .vnum 2)]] (.vmap []) =
      SetApply [("a", .vnum 2)] (.vmap []) ∧
    runEmits [.opWhere [⟨[⟨"x", none⟩], "1"⟩], .opSet [("a", .vnum 2)]] (.vmap []) = true := by
  obtain ⟨h1, _, h3⟩ := pipeline_set_after_where [⟨[⟨"x", none⟩], "1"⟩] [("a", .vnum 2)]
    (.vmap []) (by decide) (by
      intro pr hpr
      simp only [List.mem_singleton] at hpr
      subst hpr
      exact ⟨[⟨"a", none⟩], by decide, by decide⟩)
  exact ⟨h1, h3⟩

/-! # Claim C1: flattened-mode Pick with a single path -/

/-- Wildcard-free steps expand to at most one concrete path. -/
theorem expandSegments_concrete_len (segs : List Segment) :
    ∀ (v : Val) (cp : String), (∀ s ∈ segs, s.idx ≠ some (-1)) →
      (expandSegments segs v cp).length ≤ 1 := by
  induction segs with
  | nil => intro v cp _; simp [expandSegments]
  | cons s rest ih =>
    intro v cp h
    have hs := h s (by simp)
    have h1 : ∀ t ∈ rest, t.idx ≠ some (-1) := fun t ht => h t (by simp [ht])
    by_cases hk : s.key = ""
    · simp [expandSegments, hk]
    · cases v with
      | vmap m =>
        cases hg : mapGet m s.key with
        | none => simp [expandSegments, hk, hg]
        | some child =>
          cases hix : s.idx with
          | none => simpa [expandSegments, hk, hg, hix] using ih child _ h1
          | some i =>
            cases child with
            | arr xs =>
              have hne : ¬ i = -1 := fun he => hs (by rw [hix, he])
              simp only [expandSegments, hg, hix, if_neg hk, if_neg hne]
              split
              · simp
              · exact ih _ _ h1
            | vnull => simp [expandSegments, hk, hg, hix]
            | vbool b => simp [expandSegments, hk, hg, hix]
            | vnum n => simp [expandSegments, hk, hg, hix]
            | vstr s1 => simp [expandSegments, hk, hg, hix]
            | vmap m2 => simp [expandSegments, hk, hg, hix]
            | filtered => simp [expandSegments, hk, hg, hix]
      | vnull => simp [expandSegments, hk]
      | vbool b => simp [expandSegments, hk]
      | vnum n => simp [expandSegments, hk]
      | vstr s1 => simp [expandSegments, hk]
      | arr xs => simp [expandSegments, hk]
      | filtered => simp [expandSegments, hk]

/-- Function `getAtPath` never resolves a path that contains the wildcard step. -/
theorem getAtPath_wildcard_none (segs : List Segment) :
    ∀ v, (∃ s ∈ segs, s.idx = some (-1)) → getAtPath v segs = none := by
  induction segs with
  | nil =>
    rintro v ⟨s, hs, _⟩
    cases hs
  | cons t rest ih =>
    rintro v ⟨s, hs, hidx⟩
    rcases List.mem_cons.mp hs with h | h
    · subst h
      by_cases hk : s.key = ""
      · cases v <;> simp [getAtPath, hk, hidx]
      · cases v with
        | vmap m =>
          cases hg : mapGet m s.key with
          | none => simp [getAtPath, hk, hg]
          | some c1 => cases c1 <;> simp [getAtPath, hk, hg, hidx]
        | vnull => simp [getAtPath, hk]
        | vbool b => simp [getAtPath, hk]
        | vnum n => simp [getAtPath, hk]
        | vstr s1 => simp [getAtPath, hk]
        | arr xs => simp [getAtPath, hk, hidx]
        | filtered => simp [getAtPath, hk]
    · by_cases hk : t.key = ""
      · cases hix : t.idx with
        | none => simpa [getAtPath, hk, hix] using ih v ⟨s, h, hidx⟩
        | some i =>
          cases v <;> simp [getAtPath, hk, hix]
          all_goals (intro _ _; exact ih _ ⟨s, h, hidx⟩)
      · cases v with
        | vmap m =>
          cases hg : mapGet m t.key with
          | none => simp [getAtPath, hk, hg]
          | some c1 =>
            cases hix : t.idx with
            | none => simpa [getAtPath, hk, hg, hix] using ih c1 ⟨s, h, hidx⟩
            | some i =>
              cases c1 <;> simp [getAtPath, hk, hg, hix]
              all_goals (intro _ _; exact ih _ ⟨s, h, hidx⟩)
        | vnull => simp [getAtPath, hk]
        | vbool b => simp [getAtPath, hk]
        | vnum n => simp [getAtPath, hk]
        | vstr s1 => simp [getAtPath, hk]
        | arr xs => simp [getAtPath, hk]
        | filtered => simp [getAtPath, hk]

/-- The collection loop is a filterMap when every expanded path parses. -/
theorem collectVals_eq_filterMap (v : Val) :
    ∀ (l : List String), (∀ q ∈ l, ∃ sq, parsePath q = .ok sq) →
      collectVals v l = .ok (l.filterMap (fun q =>
        match parsePath q with
        | .ok sq => getAtPath v sq
        | .error _ => none)) := by
  intro l
  induction l with
  | nil => intro _; rfl
  | cons q rest ih =>
    intro h
    obtain ⟨sq, hsq⟩ := h q (by simp)
    have hrest := ih (fun r hr => h r (by simp [hr]))
    cases hg : getAtPath v sq with
    | none => simp [collectVals, hsq, hg, List.filterMap_cons, hrest]
    | some val => simp [collectVals, hsq, hg, List.filterMap_cons, hrest, Except.map]

/-- C1 (amended): flattened-mode Pick with one configured path `p`.
(a) When `p` has no wildcard marker, Apply returns the bare value at `p`,
or null when not found.  (b) When `p` has a wildcard and expansion
resolves to exactly one concrete path, Apply returns null — not the value
at that concrete path, because the code re-parses the original wildcard
path, whose concrete lookup always fails.  (c) A wildcard expanding to
nothing yields an empty array.  (d) An expansion to two or more concrete
paths yields the ordered array of the values that resolve, missing
entries omitted rather than null. -/
theorem pickSinglePath_spec :
    (∀ (v : Val) (p : String) (segs : List Segment),
       hasWildcardSub p = false → parsePath p = .ok segs →
       (∀ s ∈ segs, s.idx ≠ some (-1)) →
       applySinglePath v p = .ok ((getAtPath v segs).getD .vnull)) ∧
    (∀ (v : Val) (p : String) (segs : List Segment) (q : String) (s : Segment),
       hasWildcardSub p = true → parsePath p = .ok segs → s ∈ segs → s.idx = some (-1) →
       expandWildcardPaths v p = .ok [q] →
       applySinglePath v p = .ok .vnull) ∧
    (∀ (v : Val) (p : String), hasWildcardSub p = true →
       expandWildcardPaths v p = .ok [] → applySinglePath v p = .ok (.arr [])) ∧
    (∀ (v : Val) (p : String) (l : List String),
       expandWildcardPaths v p = .ok l → 2 ≤ l.length →
       (∀ q ∈ l, ∃ sq, parsePath q = .ok sq) →
       applySinglePath v p = .ok (.arr (l.filterMap (fun q =>
         match parsePath q with
         | .ok sq => getAtPath v sq
         | .error _ => none)))) := by
  refine ⟨?_, ?_, ?_, ?_⟩
  · intro v p segs hwf hp hnw
    have hexp : expandWildcardPaths v p = .ok (expandSegments segs v "") := by
      rw [expandWildcardPaths, hp]
      rfl
    have hlen := expandSegments_concrete_len segs v "" hnw
    simp only [applySinglePath, hexp, hwf]
    rw [if_neg (by simp), if_pos hlen, hp]
    cases hg : getAtPath v segs <;> simp [hg]
  · intro v p segs q s hw hp hs hidx hexp
    have hnone : getAtPath v segs = none := getAtPath_wildcard_none segs v ⟨s, hs, hidx⟩
    simp only [applySinglePath, hexp, hw]
    rw [if_neg (by simp), if_pos (by simp), hp]
    simp [hnone]
  · intro v p hw hexp
    simp only [applySinglePath, hexp, hw]
    rw [if_pos (by simp)]
  · intro v p l hexp hlen hall
    have hne : l.isEmpty = false := by
      cases l with
      | nil => simp at hlen
      | cons a t => rfl
    simp only [applySinglePath, hexp]
    rw [if_neg (by simp [hne]), if_neg (by omega), collectVals_eq_filterMap v l hall]
    rfl

/-- Witness for C1: the spec scenario `user.name` (no wildcard). -/
theorem pickSinglePath_spec_witness :
    applySinglePath (.vmap [("user", .vmap [("name", .vstr "alice")])]) "user.name" =
      .ok ((getAtPath (.vmap [("user", .vmap [("name", .vstr "alice")])])
        [⟨"user", none⟩, ⟨"name", none⟩]).getD .vnull) :=
  pickSinglePath_spec.1 _ "user.name" [⟨"user", none⟩, ⟨"name", none⟩] (by decide) (by decide)
    (by decide)

/-- Counterexample to C1 as stated: against `{"items": [42]}` the path
`items[*]` expands to exactly one concrete path, `items[0]`, whose value
is `42`; Apply nevertheless returns null. -/
theorem pickSinglePath_counterexample :
    applySinglePath (.vmap [("items", .arr [.vnum 42])]) "items[*]" = .ok .vnull ∧
    expandWildcardPaths (.vmap [("items", .arr [.vnum 42])]) "items[*]" = .ok ["items[0]"] ∧
    getAtPath (.vmap [("items", .arr [.vnum 42])]) [⟨"items", some 0⟩] = some (.vnum 42) ∧
    Except.ok Val.vnull ≠ (.ok (.vnum 42) : Except String Val) := by
  refine ⟨by decide, by decide, by decide, by decide⟩

/-! # Claim C2: Delete loses the enclosing document (code bug) -/

/-- C2 fails on the code: `navigateToParent` runs `*cur = next` on its
first iteration, writing the first child through the caller's root
pointer.  Deleting the concrete two-step path `user.name` from
`{"user": {"name": "alice", "age": 30}, "id": 123}` therefore returns the
inner `user` mapping (with `name` removed) instead of the full document
that the claim, §4.5 of the spec, and the repository's own
`TestDelete_NestedPath` expect; the sibling key `id` is lost. -/
theorem deleteApply_clobbers_root :
    DeleteApply ["user.name"]
      (.vmap [("user", .vmap [("name", .vstr "alice"), ("age", .vnum 30)]),
              ("id", .vnum 123)]) =
      .ok (.vmap [("age", .vnum 30)]) ∧
    Except.ok (Val.vmap [("age", .vnum 30)]) ≠
      (.ok (.vmap [("user", .vmap [("age", .vnum 30)]), ("id", .vnum 123)]) :
        Except String Val) := by
  refine ⟨by decide, by decide⟩

/-! # Claim C7: parser error characterization -/

theorem dropWhile_empty_iff_no_open (part : List Char) :
    (part.dropWhile (· ≠ '[')).isEmpty = true ↔ part.any (· = '[') = false := by
  induction part with
  | nil => simp
  | cons c cs ih =>
    by_cases hc : c = '['
    · subst hc
      simp [List.dropWhile_cons]
    · simp [List.dropWhile_cons, hc, ih]

theorem digitsToNatAux_eq (ds : List Char) :
    ∀ acc, digitsToNatAux ds acc =
      if ds.all Char.isDigit then
        some (ds.foldl (fun a c => a * 10 + (c.toNat - '0'.toNat)) acc)
      else none := by
  induction ds with
  | nil => intro acc; simp [digitsToNatAux]
  | cons c cs ih =>
    intro acc
    by_cases hc : c.isDigit
    · simp [digitsToNatAux, hc, ih, List.all_cons]
    · simp [digitsToNatAux, hc, List.all_cons]

theorem digitsToNat_eq (ds : List Char) :
    digitsToNat ds =
      if ds.isEmpty = false ∧ ds.all Char.isDigit = true then some (digitsVal ds)
      else none := by
  unfold digitsToNat digitsVal
  by_cases he : ds.isEmpty
  · simp [he]
  · rw [if_neg he, digitsToNatAux_eq]
    by_cases hd : ds.all Char.isDigit
    · rw [if_pos hd, if_pos ⟨by simpa using he, hd⟩]
    · rw [if_neg hd, if_neg (fun hc => hd hc.2)]

theorem bind_guard_some (o : Option Nat) (f : Nat → Option Int) (n : Int)
    (h : o.bind f = some n) : ∃ m, o = some m ∧ f m = some n := by
  cases o with
  | none => cases h
  | some m => exact ⟨m, rfl, h⟩

/-- Model `strconv.Atoi` accepts with a non-negative result exactly the
amended index bodies. -/
theorem atoi_accept_iff (body : List Char) :
    (∃ n, atoi body = some n ∧ ¬ n < 0) ↔ amendedIndexOk body := by
  cases body with
  | nil =>
    refine iff_of_false ?_ ?_
    · rintro ⟨n, hn, _⟩
      cases hn
    · rintro (⟨h, _⟩ | ⟨h, _⟩ | ⟨_, _, h, _⟩) <;> cases h
  | cons c ds =>
    by_cases hp : c = '+'
    · subst hp
      have hred : atoi ('+' :: ds) = (digitsToNat ds).bind fun n =>
          if (n : Int) ≤ 2 ^ 63 - 1 then some (n : Int) else none := by
        simp [atoi]
      constructor
      · rintro ⟨n, hn, hnn⟩
        rw [hred] at hn
        obtain ⟨m1, hmm, hg⟩ := bind_guard_some _ _ _ hn
        rw [digitsToNat_eq] at hmm
        split at hmm
        next hcond =>
          obtain rfl := Option.some.inj hmm
          split at hg
          next hr =>
            exact Or.inl ⟨rfl, hcond.1, hcond.2, by
              simp only [List.drop_succ_cons, List.drop_zero]
              omega⟩
          next => cases hg
        next => cases hmm
      · rintro (⟨_, hne, hdig, hr⟩ | ⟨hhd, _⟩ | ⟨hhd, _⟩)
        · have hne2 : ds.isEmpty = false := by simpa using hne
          have hdig2 : ds.all Char.isDigit = true := by simpa using hdig
          have hr2 : digitsVal ds ≤ 2 ^ 63 - 1 := by simpa using hr
          refine ⟨(digitsVal ds : Int), ?_, by omega⟩
          rw [hred, digitsToNat_eq, if_pos ⟨hne2, hdig2⟩, Option.some_bind,
            if_pos (by omega)]
        · have hhd2 : some '+' = some '-' := hhd
          exact absurd (Option.some.inj hhd2) (by decide)
        · have hhd2 : ¬ some '+' = some '+' := hhd
          exact absurd rfl hhd2
    · by_cases hm : c = '-'
      · subst hm
        have hred : atoi ('-' :: ds) = (digitsToNat ds).bind fun n =>
            if (n : Int) ≤ 2 ^ 63 then some (-(n : Int)) else none := by
          simp [atoi]
        constructor
        · rintro ⟨n, hn, hnn⟩
          rw [hred] at hn
          obtain ⟨m1, hmm, hg⟩ := bind_guard_some _ _ _ hn
          rw [digitsToNat_eq] at hmm
          split at hmm
          next hcond =>
            obtain rfl := Option.some.inj hmm
            split at hg
            next hr =>
              obtain rfl := Option.some.inj hg
              exact Or.inr (Or.inl ⟨rfl, hcond.1, hcond.2, by
                simp only [List.drop_succ_cons, List.drop_zero]
                omega⟩)
            next => cases hg
          next => cases hmm
        · rintro (⟨hhd, _⟩ | ⟨_, hne, hdig, hz⟩ | ⟨_, hhd, _⟩)
          · have hhd2 : some '-' = some '+' := hhd
            exact absurd (Option.some.inj hhd2) (by decide)
          · have hne2 : ds.isEmpty = false := by simpa using hne
            have hdig2 : ds.all Char.isDigit = true := by simpa using hdig
            have hz2 : digitsVal ds = 0 := by simpa using hz
            refine ⟨0, ?_, by omega⟩
            rw [hred, digitsToNat_eq, if_pos ⟨hne2, hdig2⟩, Option.some_bind, hz2,
              if_pos (by norm_num)]
            norm_num
          · have hhd2 : ¬ some '-' = some '-' := hhd
            exact absurd rfl hhd2
      · have hred : atoi (c :: ds) = (digitsToNat (c :: ds)).bind fun n =>
            if (n : Int) ≤ 2 ^ 63 - 1 then some (n : Int) else none := by
          simp [atoi, hp, hm]
        have hhd_p : ¬ (c :: ds).head? = some '+' := fun h => hp (Option.some.inj h)
        have hhd_m : ¬ (c :: ds).head? = some '-' := fun h => hm (Option.some.inj h)
        constructor
        · rintro ⟨n, hn, hnn⟩
          rw [hred] at hn
          obtain ⟨m1, hmm, hg⟩ := bind_guard_some _ _ _ hn
          rw [digitsToNat_eq] at hmm
          split at hmm
          next hcond =>
            obtain rfl := Option.some.inj hmm
            split at hg
            next hr => exact Or.inr (Or.inr ⟨hhd_p, hhd_m, hcond.1, hcond.2, by omega⟩)
            next => cases hg
          next => cases hmm
        · rintro (⟨hhd, _⟩ | ⟨hhd, _⟩ | ⟨_, _, hne, hdig, hr⟩)
          · exact absurd hhd hhd_p
          · exact absurd hhd hhd_m
          · refine ⟨(digitsVal (c :: ds) : Int), ?_, by omega⟩
            rw [hred, digitsToNat_eq, if_pos ⟨hne, hdig⟩, Option.some_bind,
              if_pos (by omega)]

/-- On an all-digits body, an accepting `atoi` returns the denoted
value. -/
theorem atoi_digits_val (body : List Char) (n : Int) (h : atoi body = some n)
    (hdig : body.all Char.isDigit = true) : n = (digitsVal body : Int) := by
  cases body with
  | nil => cases h
  | cons c ds =>
    have hcd : c.isDigit = true := by
      simp only [List.all_cons, Bool.and_eq_true] at hdig
      exact hdig.1
    have hp : ¬ c = '+' := fun he => by
      rw [he] at hcd
      exact absurd hcd (by decide)
    have hm : ¬ c = '-' := fun he => by
      rw [he] at hcd
      exact absurd hcd (by decide)
    have hred : atoi (c :: ds) = (digitsToNat (c :: ds)).bind fun k =>
        if (k : Int) ≤ 2 ^ 63 - 1 then some (k : Int) else none := by
      simp [atoi, hp, hm]
    rw [hred] at h
    obtain ⟨m1, hmm, hg⟩ := bind_guard_some _ _ _ h
    rw [digitsToNat_eq, if_pos ⟨rfl, hdig⟩] at hmm
    obtain rfl := Option.some.inj hmm
    split at hg
    · exact (Option.some.inj hg).symm
    · cases hg

/-- Segment-level error characterization (amended). -/
theorem parseSegment_err_iff (part : List Char) :
    isErr (parseSegment part) = true ↔ segBadAmended part := by
  by_cases hopen : (part.dropWhile (· ≠ '[')).isEmpty = true
  · have hany : part.any (· = '[') = false := (dropWhile_empty_iff_no_open part).mp hopen
    refine iff_of_false ?_ ?_
    · simp only [parseSegment, if_pos hopen, isErr]
      simp
    · rintro ⟨h1, _⟩
      rw [hany] at h1
      cases h1
  · have hany : part.any (· = '[') = true := by
      cases h : part.any (· = '[') with
      | false => exact absurd ((dropWhile_empty_iff_no_open part).mpr h) hopen
      | true => rfl
    simp only [parseSegment, segBadAmended]
    rw [if_neg hopen]
    by_cases hb1 : part.getLast? ≠ some ']' ∨ (part.takeWhile (· ≠ '[')).isEmpty = true
    · rw [if_pos hb1]
      exact iff_of_true rfl ⟨hany, by tauto⟩
    · rw [if_neg hb1]
      push_neg at hb1
      by_cases hb2 : (idxBodyOf part).isEmpty = true
      · rw [if_pos hb2]
        exact iff_of_true rfl ⟨hany, by tauto⟩
      · rw [if_neg hb2]
        by_cases hb3 : idxBodyOf part = ['*']
        · rw [if_pos hb3]
          refine iff_of_false (by simp [isErr]) ?_
          rintro ⟨_, h | h | h | ⟨hne, _⟩⟩
          · exact absurd h hb1.2
          · exact h hb1.1
          · exact hb2 h
          · exact hne hb3
        · rw [if_neg hb3]
          cases ha : atoi (idxBodyOf part) with
          | some n =>
            by_cases hn : n < 0
            · simp only [ha, if_pos hn]
              refine iff_of_true rfl ⟨hany, Or.inr (Or.inr (Or.inr ⟨hb3, fun hok => ?_⟩))⟩
              obtain ⟨n1, hn1, hnn⟩ := (atoi_accept_iff _).mpr hok
              rw [ha] at hn1
              obtain rfl := Option.some.inj hn1
              exact hnn hn
            · simp only [ha, if_neg hn]
              refine iff_of_false (by simp [isErr]) ?_
              rintro ⟨_, h | h | h | ⟨_, hnok⟩⟩
              · exact absurd h hb1.2
              · exact h hb1.1
              · exact hb2 h
              · exact hnok ((atoi_accept_iff _).mp ⟨n, ha, hn⟩)
          | none =>
            simp only [ha]
            refine iff_of_true rfl ⟨hany, Or.inr (Or.inr (Or.inr ⟨hb3, fun hok => ?_⟩))⟩
            obtain ⟨n1, hn1, _⟩ := (atoi_accept_iff _).mpr hok
            rw [ha] at hn1
            cases hn1

/-- Segment-level production: a successful parse matches the claim's
described output. -/
theorem parseSegment_ok_shape (part : List Char) (s : Segment)
    (h : parseSegment part = .ok s) : producedSeg part s := by
  by_cases hopen : (part.dropWhile (· ≠ '[')).isEmpty = true
  · have hany := (dropWhile_empty_iff_no_open part).mp hopen
    have htake : part.takeWhile (· ≠ '[') = part := by
      have hsplit := List.takeWhile_append_dropWhile (p := (· ≠ '[')) (l := part)
      rw [List.isEmpty_iff.mp hopen, List.append_nil] at hsplit
      exact hsplit
    simp only [parseSegment, if_pos hopen] at h
    obtain rfl := Except.ok.inj h
    refine ⟨by rw [htake], fun _ => rfl, fun hc _ => ?_, fun hc _ => ?_⟩
    · rw [hany] at hc
      cases hc
    · rw [hany] at hc
      cases hc
  · have hany : part.any (· = '[') = true := by
      cases hh : part.any (· = '[') with
      | false => exact absurd ((dropWhile_empty_iff_no_open part).mpr hh) hopen
      | true => rfl
    simp only [parseSegment, if_neg hopen] at h
    split at h
    · cases h
    · split at h
      · cases h
      · split at h
        next hstar =>
          obtain rfl := Except.ok.inj h
          refine ⟨rfl, fun hno => absurd hany hno, fun _ _ => rfl, fun _ hdig => ?_⟩
          rw [hstar] at hdig
          exact absurd hdig (by decide)
        next hstar =>
          split at h
          next n ha =>
            split at h
            · cases h
            next hn =>
              obtain rfl := Except.ok.inj h
              refine ⟨rfl, fun hno => absurd hany hno, fun _ hst => absurd hst hstar,
                fun _ hdig => ?_⟩
              have hv := atoi_digits_val _ _ ha hdig
              simpa using hv
          next ha => cases h

/-- Fragment-list error characterization. -/
theorem parseSegsList_err_iff (parts : List (List Char)) :
    isErr (parseSegsList parts) = true ↔ ∃ part ∈ parts, segBadAmended part := by
  induction parts with
  | nil => simp [parseSegsList, isErr]
  | cons part rest ih =>
    cases hps : parseSegment part with
    | error e =>
      have hbad : segBadAmended part := (parseSegment_err_iff part).mp (by rw [hps]; rfl)
      refine iff_of_true ?_ ⟨part, by simp, hbad⟩
      simp [parseSegsList, hps, isErr]
    | ok s0 =>
      have hgood : ¬ segBadAmended part := fun hb => by
        have hbe := (parseSegment_err_iff part).mpr hb
        rw [hps] at hbe
        exact absurd hbe (by simp [isErr])
      cases hrest : parseSegsList rest with
      | error e =>
        have herr : isErr (parseSegsList rest) = true := by rw [hrest]; rfl
        obtain ⟨q, hq, hbq⟩ := ih.mp herr
        refine iff_of_true ?_ ⟨q, by simp [hq], hbq⟩
        simp [parseSegsList, hps, hrest, isErr, Except.map]
      | ok segs0 =>
        refine iff_of_false ?_ ?_
        · simp [parseSegsList, hps, hrest, isErr, Except.map]
        · rintro ⟨q, hq, hbq⟩
          rcases List.mem_cons.mp hq with h | h
          · subst h
            exact hgood hbq
          · have hbe := ih.mpr ⟨q, h, hbq⟩
            rw [hrest] at hbe
            exact absurd hbe (by simp [isErr])

/-- Fragment-list production. -/
theorem parseSegsList_shape (parts : List (List Char)) :
    ∀ (segs : List Segment), parseSegsList parts = .ok segs →
      List.Forall₂ producedSeg parts segs := by
  induction parts with
  | nil =>
    intro segs h
    obtain rfl := Except.ok.inj h
    exact List.Forall₂.nil
  | cons part rest ih =>
    intro segs h
    unfold parseSegsList at h
    cases hps : parseSegment part with
    | error e =>
      rw [hps] at h
      cases h
    | ok s0 =>
      rw [hps] at h
      cases hrest : parseSegsList rest with
      | error e =>
        rw [hrest] at h
        cases h
      | ok segs0 =>
        rw [hrest] at h
        obtain rfl := Except.ok.inj h
        exact List.Forall₂.cons (parseSegment_ok_shape part s0 hps) (ih segs0 hrest)

/-- C7 (amended): `parsePath p` returns an error iff `p` is empty, or
some `.`-separated fragment of `p` starts with `[`, or contains `[` but
does not end with `]`, or has an empty index body, or has an index body
other than `*` that `strconv.Atoi` does not accept as a non-negative
integer representable in a signed 64-bit int (an optional leading sign is
accepted, a `-` only for value zero); otherwise it succeeds producing one
step per fragment, where body `*` yields the wildcard marker `-1` and a
digits body yields that concrete index.  (The claim as stated, with
unbounded "non-negative integer", fails on a 2^63 index: see the
counterexample.) -/
theorem parsePath_error_iff (p : String) :
    (isErr (parsePath p) = true ↔
      (p = "" ∨ ∃ part ∈ splitOnChar '.' p.toList, segBadAmended part)) ∧
    (∀ segs, parsePath p = .ok segs →
      List.Forall₂ producedSeg (splitOnChar '.' p.toList) segs) := by
  constructor
  · by_cases hp : p = ""
    · subst hp
      exact iff_of_true rfl (Or.inl rfl)
    · rw [parsePath, if_neg hp, parseSegsList_err_iff]
      simp [hp]
  · intro segs hsegs
    unfold parsePath at hsegs
    split at hsegs
    · cases hsegs
    · exact parseSegsList_shape _ _ hsegs

/-- Witness for C7: the fragment `a[` (missing `]`) is rejected. -/
theorem parsePath_error_iff_witness :
    isErr (parsePath "a[") = true :=
  (parsePath_error_iff "a[").1.mpr (by decide)

/-- Counterexample to C7 as stated: the index body
`9223372036854775808` (2^63) is a non-negative integer, so under the
claim's error condition the path parses; `strconv.Atoi` reports an
out-of-range error on 64-bit Go, and `parsePath` fails. -/
theorem parsePath_error_counterexample :
    parsePath "a[9223372036854775808]" = .error "invalid non-negative index" ∧
    ¬ pathErrClaim "a[9223372036854775808]" := by
  refine ⟨by decide, by decide⟩

end Flow
